import Mathlib

/-!
Shallow embedding of the inverted-index core of the snip repository
(`snip.go`): tokenization, indexing, the position encoding, index search,
scoring, and context extraction.

Modelling conventions:
* Go strings that only carry free-form text (document words, stems, uuids)
  are Lean `String`; the persisted `positions` column, whose character-level
  structure matters (comma-joined decimals), is modelled as `List Char`.
* The sqlite `snip_index` table is a list of rows (`Store`); `SELECT` with
  one `Step` reads the first matching row (`List.find?`), `UPDATE` rewrites
  every matching row, `INSERT` appends.
* The snowball stemmer is an external library; it is a parameter
  (`Stemmer`) of every operation that stems.  Where the Go code ignores the
  returned error (as `SearchIndexTerm` does), the model does the same and
  uses the zero value `""` that the library returns alongside an error.
* The uniseg word segmenter is external; a document is modelled by the list
  of Unicode word segments of its text (`Snip.segs`), and `SplitWords`
  performs the word filtering that the Go loop does on that stream.
* A Go panic (out-of-range slice index) is modelled by `Option`/`Err.panic`.
* Go `int` arithmetic in `GatherContext` is modelled with `Int`
  (values stay far below 2^63, so overflow is not reachable here).
-/

namespace SnipGo

/-- Failure outcomes of the modelled operations. -/
inductive Err where
  | emptyQuery
  | stemFail
  | atoiFail
  | splitEmpty
  | lenMismatch
  | panic
deriving DecidableEq, Repr

/-- Character class used by `IsWord`: `unicode.IsLetter || unicode.IsDigit`
(modelled for the alphanumeric range exercised by the corpus). -/
def isWordChar (c : Char) : Bool := c.isAlpha || c.isDigit

/-- IsWord determines if a string is a valid word: every character must be a
letter or a digit (snip.go, `IsWord`). -/
def IsWord (word : String) : Bool := word.data.all isWordChar

/-- SplitWords keeps exactly the Unicode word segments that satisfy `IsWord`
(snip.go, `SplitWords`); the segment stream produced by
`uniseg.FirstWordInString` is the input list. -/
def SplitWords (segs : List String) : List String :=
  segs.filter (fun w => IsWord w)

/-- CountWords returns the number of split words (snip.go, `CountWords`). -/
def CountWords (segs : List String) : Nat := (SplitWords segs).length

/-- Lower-casing of one character (`strings.ToLower` is Go library code;
modelled character-wise for the ASCII range the proofs exercise). -/
def toLowerChar (c : Char) : Char :=
  if 65 ≤ c.toNat ∧ c.toNat ≤ 90 then Char.ofNat (c.toNat + 32) else c

/-- DownCase lower-cases every word (snip.go, `DownCase`). -/
def DownCase (words : List String) : List String :=
  words.map (fun w => String.mk (w.data.map toLowerChar))

/-! Decimal encoding of positions (`strconv.Itoa` / `strconv.Atoi`,
`strings.Join` / `strings.Split` specialised to the separator ","). -/

/-- Decimal digit character for a value below ten. -/
def digitChar (d : Nat) : Char := Char.ofNat (48 + d)

/-- Numeric value of a decimal digit character. -/
def charVal (c : Char) : Nat := c.toNat - 48

/-- Recognises the characters accepted by `strconv.Atoi` as digits. -/
def isDigitChar (c : Char) : Bool := 48 ≤ c.toNat && c.toNat ≤ 57

/-- Digits of `n` in base ten, most significant first; the fuel argument is
an upper bound on the recursion depth (`n` itself is always enough). -/
def natDigitsAux : Nat → Nat → List Char
  | 0, _ => []
  | fuel + 1, n =>
    if n < 10 then [digitChar n]
    else natDigitsAux fuel (n / 10) ++ [digitChar (n % 10)]

/-- Decimal rendering of a natural number (`strconv.Itoa` on the
non-negative values produced by the indexer). -/
def natDigits (n : Nat) : List Char := natDigitsAux (n + 1) n

/-- Digit-string parser underlying `strconv.Atoi`. -/
def parseDigits (s : List Char) : Except Err Nat :=
  if s ≠ [] ∧ s.all isDigitChar then
    .ok (s.foldl (fun acc c => 10 * acc + charVal c) 0)
  else .error .atoiFail

/-- Model of `strconv.Atoi`: optional sign, then a non-empty digit run. -/
def atoi (s : List Char) : Except Err Int :=
  match s with
  | [] => .error .atoiFail
  | c :: rest =>
    if c = '-' then (parseDigits rest).map (fun n => -(n : Int))
    else if c = '+' then (parseDigits rest).map (fun n => (n : Int))
    else (parseDigits s).map (fun n => (n : Int))

/-- Model of `strings.Split` with separator ",": the result always has at
least one element, and consecutive separators produce empty elements. -/
def splitComma : List Char → List (List Char)
  | [] => [[]]
  | c :: rest =>
    if c = ',' then [] :: splitComma rest
    else
      match splitComma rest with
      | [] => [[c]]
      | x :: xs => (c :: x) :: xs

/-- Model of `strings.Join` with separator ",". -/
def joinComma : List (List Char) → List Char
  | [] => []
  | [x] => x
  | x :: y :: rest => x ++ ',' :: joinComma (y :: rest)

/-- Serialized form of a position list, as written by `SetPositions`
(snip.go): decimal renderings joined by commas. -/
def serializePositions (ps : List Nat) : List Char :=
  joinComma (ps.map natDigits)

/-- Per-element parsing loop of `GatherContext` (snip.go lines 101-112):
an empty final element is dropped, every other element goes through
`Atoi` and a failure aborts. -/
def parseParts : List (List Char) → Except Err (List Int)
  | [] => .ok []
  | [p] => if p = [] then .ok [] else (atoi p).map (fun i => [i])
  | p :: q :: rest => do
    let i ← atoi p
    let is ← parseParts (q :: rest)
    .ok (i :: is)

/-- Splitting and parsing of a stored positions string, exactly as
`GatherContext` does it (snip.go lines 95-112), including the dead
zero-elements check after the split. -/
def parsePositions (s : List Char) : Except Err (List Int) :=
  let parts := splitComma s
  if parts = [] then .error .splitEmpty else parseParts parts

/-! The index store (`snip_index` table). -/

/-- One row of the `snip_index` table; `positions` is `none` while the
column is still NULL (right after the INSERT in `SetIndexTermCount`). -/
structure IndexEntry where
  term : String
  uuid : String
  count : Nat
  positions : Option (List Char)
deriving DecidableEq, Repr

/-- The `snip_index` table, in row order. -/
abbrev Store := List IndexEntry

/-- Row predicate of the SQL `WHERE term = ? AND uuid = ?` clauses. -/
def entryMatches (t u : String) (e : IndexEntry) : Bool :=
  e.term = t && e.uuid = u

/-- GetIndexTermCount reads the count of the first matching row, zero when
nothing matches (snip.go, `GetIndexTermCount`). -/
def GetIndexTermCount (t u : String) (σ : Store) : Nat :=
  match σ.find? (entryMatches t u) with
  | some e => e.count
  | none => 0

/-- SetIndexTermCount updates the matching rows when a non-zero count is
already stored, otherwise inserts a fresh row whose positions column is
still NULL (snip.go, `SetIndexTermCount`). -/
def SetIndexTermCount (t u : String) (c : Nat) (σ : Store) : Store :=
  if GetIndexTermCount t u σ ≠ 0 then
    σ.map (fun e => if entryMatches t u e then { e with count := c } else e)
  else
    σ ++ [⟨t, u, c, none⟩]

/-- SetPositions joins the positions and rewrites the column of every
matching row; with no matching row it is a silent no-op, like the SQL
UPDATE (snip.go, `SetPositions`). -/
def SetPositions (t u : String) (ps : List Nat) (σ : Store) : Store :=
  σ.map (fun e =>
    if entryMatches t u e then { e with positions := some (serializePositions ps) } else e)

/-- GetPositions reads the positions string of the first matching row; no
row (or a NULL column) reads as the empty string (snip.go,
`GetPositions`). -/
def GetPositions (σ : Store) (u t : String) : List Char :=
  match σ.find? (entryMatches t u) with
  | some e => e.positions.getD []
  | none => []

/-- CumulativeTermsCount sums `count` over every row of one document
(snip.go, `CumulativeTermsCount`; `sum()` of no rows reads as zero). -/
def CumulativeTermsCount (σ : Store) (id : String) : Nat :=
  ((σ.filter (fun e => e.uuid = id)).map IndexEntry.count).sum

/-! The indexer (`Snip.Index`). -/

/-- A document as the core sees it: its identifier and the Unicode word
segments of its text. -/
structure Snip where
  uuid : String
  segs : List String
deriving DecidableEq, Repr

/-- The external snowball stemmer. -/
abbrev Stemmer := String → Except Err String

/-- Stems a word list in order, aborting on the first failure, exactly like
the stemming loops of `Index` and `GatherContext` (snip.go). -/
def stemAll (stem : Stemmer) : List String → Except Err (List String)
  | [] => .ok []
  | w :: rest => do
    let s ← stem w
    let srest ← stemAll stem rest
    .ok (s :: srest)

/-- Single pass of the counting loop of `Index` (snip.go lines 242-249):
walk the stemmed words with their indices, incrementing the count and
appending the position at every occurrence of `t`. -/
def scanGo (t : String) : List String → Nat → Nat → List Nat → Nat × List Nat
  | [], _, c, ps => (c, ps)
  | x :: rest, idx, c, ps =>
    if x = t then scanGo t rest (idx + 1) (c + 1) (ps ++ [idx])
    else scanGo t rest (idx + 1) c ps

/-- Count and ordered positions of a stem in the stemmed word list. -/
def scanTerm (s : List String) (t : String) : Nat × List Nat :=
  scanGo t s 0 0 []

/-- First-occurrence list of distinct stems, as accumulated by the
`terms` map guard of `Index` (snip.go lines 233-239). -/
def collectTerms (s : List String) : List String :=
  s.foldl (fun acc t => if t ∈ acc then acc else acc ++ [t]) []

/-- Batch of `(stem, count, positions)` triples that one run of `Index`
writes.  Go iterates the `terms` map in unspecified order; the model fixes
first-occurrence order, which leaves every row's content unchanged. -/
def indexData (dataStemmed : List String) : List (String × Nat × List Nat) :=
  (collectTerms dataStemmed).map (fun t => (t, scanTerm dataStemmed t))

/-- First write-back loop of `Index` (snip.go lines 255-260): one
`SetIndexTermCount` per distinct stem. -/
def applyCounts (u : String) (data : List (String × Nat × List Nat)) (σ : Store) : Store :=
  data.foldl (fun acc p => SetIndexTermCount p.1 u p.2.1 acc) σ

/-- Second write-back loop of `Index` (snip.go lines 261-266): one
`SetPositions` per distinct stem. -/
def applyPositions (u : String) (data : List (String × Nat × List Nat)) (σ : Store) : Store :=
  data.foldl (fun acc p => SetPositions p.1 u p.2.2 acc) σ

/-- Index stems the whole document and upserts counts, then positions, for
every distinct stem (snip.go, `Snip.Index`), including the length
consistency check between cleaned and stemmed words. -/
def Snip.Index (stem : Stemmer) (s : Snip) (σ : Store) : Except Err Store :=
  match stemAll stem (DownCase (SplitWords s.segs)) with
  | .error e => .error e
  | .ok dataStemmed =>
    if (DownCase (SplitWords s.segs)).length ≠ dataStemmed.length then .error .lenMismatch
    else .ok (applyPositions s.uuid (indexData dataStemmed)
      (applyCounts s.uuid (indexData dataStemmed) σ))

/-! The query engine (`SearchIndexTerm`). -/

/-- SearchCount carries one term's match statistics (snip.go). -/
structure SearchCount where
  Term : String
  Stem : String
  Count : Nat
deriving DecidableEq, Repr

/-- Result map of `SearchIndexTerm`: document uuid to accumulated match
list, in first-encounter order (Go uses a hash map; only the key-to-value
association is observable). -/
abbrev QueryResult := List (String × List SearchCount)

/-- Stemming as `SearchIndexTerm` uses it: the returned error is discarded
(the `err` of `snowball.Stem` is shadowed before being checked, snip.go
lines 927-930) and the zero value accompanying a failure is used. -/
def stemDropErr (stem : Stemmer) (t : String) : String :=
  match stem t with
  | .ok s => s
  | .error _ => ""

/-- Appends one match to a document's list, `searchResults[id] =
append(searchResults[id], result)` on the assoc-list model of the map. -/
def addResult : QueryResult → String → SearchCount → QueryResult
  | [], id, sc => [(id, [sc])]
  | (k, l) :: rest, id, sc =>
    if k = id then (k, l ++ [sc]) :: rest
    else (k, l) :: addResult rest id sc

/-- Accumulation phase of `SearchIndexTerm` (snip.go lines 925-967): for
each raw term, stem it and append one `SearchCount` per index row whose
term equals the stem. -/
def accumResults (stem : Stemmer) (σ : Store) (terms : List String) : QueryResult :=
  terms.foldl
    (fun res t =>
      let ts := stemDropErr stem t
      (σ.filter (fun e => e.term = ts)).foldl
        (fun res2 e => addResult res2 e.uuid ⟨t, ts, e.count⟩) res)
    []

/-- Distinct raw terms present in a match list, in first-occurrence order
(the `termsCollected` loop of snip.go lines 974-987). -/
def collectedTerms (l : List SearchCount) : List String :=
  collectTerms (l.map SearchCount.Term)

/-- Pruning phase for `requireAll` (snip.go lines 969-992): keep a document
only when the number of distinct raw terms in its match list equals the
number of supplied terms. -/
def pruneRequireAll (terms : List String) (results : QueryResult) : QueryResult :=
  results.filter (fun p => (collectedTerms p.2).length == terms.length)

/-- SearchIndexTerm (snip.go): reject an empty term list, accumulate
matches per document, and prune when `requireAll` is set. -/
def SearchIndexTerm (stem : Stemmer) (σ : Store) (terms : List String)
    (requireAll : Bool) : Except Err QueryResult :=
  if terms.length ≤ 0 then .error .emptyQuery
  else
    let results := accumResults stem σ terms
    if requireAll then .ok (pruneRequireAll terms results) else .ok results

/-! The scorer (`ScoreCounts`). -/

/-- ScoreCounts (snip.go): mean of the matched-terms ratio and the
prominence ratio, the latter zero when the document has no indexed
occurrences.  Go computes in float64; the model uses exact rationals with
the same expression structure. -/
def ScoreCounts (σ : Store) (id : String) (terms : List String)
    (counts : List SearchCount) : ℚ :=
  let matchTermsRat : ℚ := (counts.length : ℚ) / (terms.length : ℚ)
  let indexedTerms : Nat := CumulativeTermsCount σ id
  let matchProminence : ℚ :=
    if indexedTerms ≠ 0 then (terms.length : ℚ) / (indexedTerms : ℚ) else 0
  (matchTermsRat + matchProminence) / 2

/-- Coverage ratio exactly as the specification words it. -/
def coverageSpec (terms : List String) (counts : List SearchCount) : ℚ :=
  (counts.length : ℚ) / (terms.length : ℚ)

/-- Prominence ratio exactly as the specification words it. -/
def prominenceSpec (σ : Store) (id : String) (terms : List String) : ℚ :=
  if CumulativeTermsCount σ id = 0 then 0
  else (terms.length : ℚ) / ((CumulativeTermsCount σ id : Nat) : ℚ)

/-- Score exactly as the specification words it. -/
def scoreSpec (σ : Store) (id : String) (terms : List String)
    (counts : List SearchCount) : ℚ :=
  (coverageSpec terms counts + prominenceSpec σ id terms) / 2

/-! The context extractor (`GatherContext`). -/

/-- Context window around one match (snip.go, `TermContext`). -/
structure TermContext where
  Before : List String
  BeforeStart : Int
  Term : String
  After : List String
  AfterEnd : Int
deriving DecidableEq, Repr

/-- Slice read `words[i]`: `none` models the Go panic on an out-of-range
index. -/
def getAt (words : List String) (i : Int) : Option String :=
  if 0 ≤ i then words.get? i.toNat else none

/-- Reads `k` consecutive slice elements starting at `i`, failing like Go
does on the first out-of-range index. -/
def collectRangeAux : Nat → List String → Int → Option (List String)
  | 0, _, _ => some []
  | k + 1, words, i => do
    let w ← getAt words i
    let rest ← collectRangeAux k words (i + 1)
    pure (w :: rest)

/-- The loop `for i := start; i < stop; i++ { ... words[i] ... }`, which
runs exactly `max 0 (stop - start)` times. -/
def collectRange (words : List String) (i stop : Int) : Option (List String) :=
  collectRangeAux (stop - i).toNat words i

/-- Body of the per-position loop of `GatherContext` (snip.go lines
127-164): before-window with its conditionally assigned start, the term
read from the document, then the clamped after-window. -/
def contextAt (words : List String) (adjacent position : Int) : Option TermContext := do
  let start : Int := if position - adjacent < 0 then 0 else position - adjacent
  let beforeWords ← collectRange words start position
  let beforeStart : Int := if start < position then start + 1 else 0
  let termWord ← getAt words position
  let lastElement : Int :=
    if position + adjacent ≥ (words.length : Int) - 1 then (words.length : Int) - 1
    else position + adjacent
  let afterEnd : Int := lastElement + 1
  let afterWords ← collectRange words (position + 1) (lastElement + 1)
  pure ⟨beforeWords, beforeStart, termWord, afterWords, afterEnd⟩

/-- Runs the per-position body over every stored position, in order. -/
def contextAll (words : List String) (adjacent : Int) : List Int → Option (List TermContext)
  | [] => some []
  | p :: rest => do
    let c ← contextAt words adjacent p
    let cs ← contextAll words adjacent rest
    pure (c :: cs)

/-- GatherContext (snip.go): stem the search term, read and parse its
stored positions, re-split and re-stem the document, then build one
window per stored position; an out-of-range position surfaces as
`Err.panic` (the Go slice access panics). -/
def GatherContext (stem : Stemmer) (σ : Store) (s : Snip) (term : String)
    (adjacent : Int) : Except Err (List TermContext) := do
  let termStemmed ← stem term
  let positions := GetPositions σ s.uuid termStemmed
  let positionsInt ← parsePositions positions
  let words := SplitWords s.segs
  let _stems ← stemAll stem words
  match contextAll words adjacent positionsInt with
  | some ctxs => .ok ctxs
  | none => .error .panic

/-- Identity stemmer used for concrete evaluations. -/
def stemId : Stemmer := fun w => .ok w

/-- Stemmer that fails on every input, with the zero value `""` that the
library returns alongside the error. -/
def failStem : Stemmer := fun _ => .error .stemFail

end SnipGo

namespace SnipGo

/-- C2: for every document id, query term list and matched-counts list,
`ScoreCounts` returns exactly `(coverage + prominence) / 2` with
`coverage = |matchedCounts| / |queryTerms|` and
`prominence = |queryTerms| / totalIndexedOccurrencesInDocument`, the
prominence being zero when the document's total indexed occurrence count
is zero. -/
theorem scoreCounts_eq_spec (σ : Store) (id : String) (terms : List String)
    (counts : List SearchCount) :
    ScoreCounts σ id terms counts = scoreSpec σ id terms counts := by
  unfold ScoreCounts scoreSpec coverageSpec prominenceSpec
  by_cases h : CumulativeTermsCount σ id = 0 <;> simp [h]

/-- C10: every token returned by `SplitWords` is one of the original word
segments and consists solely of letters and digits; a segment containing
any other character is discarded entirely, never stripped or kept. -/
theorem splitWords_tokens_alphanumeric (segs : List String) :
    (∀ t ∈ SplitWords segs, t ∈ segs ∧ IsWord t = true) ∧
    (∀ seg ∈ segs, IsWord seg = false → seg ∉ SplitWords segs) := by
  constructor
  · intro t ht
    rw [SplitWords, List.mem_filter] at ht
    exact ⟨ht.1, ht.2⟩
  · intro seg _ hbad hmem
    rw [SplitWords, List.mem_filter] at hmem
    rw [hmem.2] at hbad
    cases hbad

/-- Witness for C10 at a concrete segment list: the alphanumeric segment
is kept verbatim, the segment with an inner hyphen is discarded. -/
theorem splitWords_tokens_alphanumeric_witness :
    ("ab" ∈ ["ab", "a-b"] ∧ IsWord "ab" = true) ∧ "a-b" ∉ SplitWords ["ab", "a-b"] :=
  ⟨(splitWords_tokens_alphanumeric ["ab", "a-b"]).1 "ab" (by decide),
   (splitWords_tokens_alphanumeric ["ab", "a-b"]).2 "a-b" (by decide) (by decide)⟩

/-- C1: evaluation of the code at the failing input.  The document
tokenizes to two words but the index stores position 5 for term "a"
(the document was edited after indexing); `GatherContext` hits the
out-of-range slice access `words[i]` and the whole operation dies with a
panic instead of skipping or clamping that window. -/
theorem gatherContext_panics_on_stale_position :
    GatherContext stemId [⟨"a", "u1", 1, some ['5']⟩] ⟨"u1", ["a", "b"]⟩ "a" 2
      = .error .panic := rfl

/-- C6: evaluation of the code at the failing input.  With a stemmer that
rejects the token "x", `Snip.Index` propagates the failure, but
`SearchIndexTerm` discards it (its `err` from `snowball.Stem` is shadowed
before being checked) and happily queries with the zero-value stem `""`,
returning a successful result instead of the stemming error. -/
theorem searchIndexTerm_swallows_stem_error :
    Snip.Index failStem ⟨"u1", ["x"]⟩ [] = .error .stemFail ∧
    SearchIndexTerm failStem [⟨"", "u1", 3, none⟩] ["x"] false
      = .ok [("u1", [⟨"x", "", 3⟩])] := ⟨rfl, rfl⟩

/-- Counterexample for C3: with the duplicated query `["bird", "bird"]`
the accumulated match list of document "d1" covers every distinct raw
term supplied, yet the document is dropped, because the code compares the
number of distinct collected terms with the total number of supplied
terms. -/
theorem searchIndexTerm_drops_duplicate_term_query :
    accumResults stemId [⟨"bird", "d1", 2, none⟩] ["bird", "bird"]
      = [("d1", [⟨"bird", "bird", 2⟩, ⟨"bird", "bird", 2⟩])] ∧
    (∀ t ∈ ["bird", "bird"],
      ∃ sc ∈ [(⟨"bird", "bird", 2⟩ : SearchCount), ⟨"bird", "bird", 2⟩], sc.Term = t) ∧
    SearchIndexTerm stemId [⟨"bird", "d1", 2, none⟩] ["bird", "bird"] true = .ok [] :=
  ⟨rfl, by decide, rfl⟩

end SnipGo

namespace SnipGo

theorem isDigitChar_digitChar (n : Nat) (h : n < 10) : isDigitChar (digitChar n) = true := by
  interval_cases n <;> decide

theorem charVal_digitChar (n : Nat) (h : n < 10) : charVal (digitChar n) = n := by
  interval_cases n <;> decide

theorem digitChar_ne_comma (n : Nat) (h : n < 10) : digitChar n ≠ ',' := by
  interval_cases n <;> decide

theorem natDigitsAux_ne_nil (f n : Nat) (h : n < f) : natDigitsAux f n ≠ [] := by
  induction f generalizing n with
  | zero => omega
  | succ f _ =>
    rw [natDigitsAux]
    by_cases h10 : n < 10
    · simp [h10]
    · simp [h10]

theorem natDigitsAux_digits (f n : Nat) (h : n < f) :
    ∀ c ∈ natDigitsAux f n, isDigitChar c = true := by
  induction f generalizing n with
  | zero => omega
  | succ f ih =>
    intro c hc
    rw [natDigitsAux] at hc
    by_cases h10 : n < 10
    · rw [if_pos h10] at hc
      rcases List.mem_singleton.mp hc with rfl
      exact isDigitChar_digitChar n h10
    · rw [if_neg h10] at hc
      rcases List.mem_append.mp hc with hc1 | hc2
      · have hdiv : n / 10 < f := by
          have := Nat.div_lt_self (by omega : 0 < n) (by omega : 1 < 10)
          omega
        exact ih (n / 10) hdiv c hc1
      · rcases List.mem_singleton.mp hc2 with rfl
        exact isDigitChar_digitChar (n % 10) (Nat.mod_lt n (by omega))

theorem natDigitsAux_foldl (f n : Nat) (h : n < f) :
    (natDigitsAux f n).foldl (fun acc c => 10 * acc + charVal c) 0 = n := by
  induction f generalizing n with
  | zero => omega
  | succ f ih =>
    rw [natDigitsAux]
    by_cases h10 : n < 10
    · simp [h10, charVal_digitChar n h10]
    · rw [if_neg h10, List.foldl_append]
      have hdiv : n / 10 < f := by
        have := Nat.div_lt_self (by omega : 0 < n) (by omega : 1 < 10)
        omega
      rw [ih (n / 10) hdiv]
      simp only [List.foldl_cons, List.foldl_nil]
      rw [charVal_digitChar (n % 10) (Nat.mod_lt n (by omega))]
      omega

theorem natDigits_ne_nil (n : Nat) : natDigits n ≠ [] :=
  natDigitsAux_ne_nil (n + 1) n (Nat.lt_succ_self n)

theorem natDigits_digits (n : Nat) : ∀ c ∈ natDigits n, isDigitChar c = true :=
  natDigitsAux_digits (n + 1) n (Nat.lt_succ_self n)

theorem natDigits_no_comma (n : Nat) : ∀ c ∈ natDigits n, c ≠ ',' := by
  intro c hc
  have := natDigits_digits n c hc
  intro hcomma
  rw [hcomma] at this
  cases this

theorem parseDigits_natDigits (n : Nat) : parseDigits (natDigits n) = .ok n := by
  rw [parseDigits, if_pos]
  · rw [natDigits, natDigitsAux_foldl (n + 1) n (Nat.lt_succ_self n)]
  · exact ⟨natDigits_ne_nil n, List.all_eq_true.mpr (natDigits_digits n)⟩

theorem atoi_natDigits (n : Nat) : atoi (natDigits n) = .ok (n : Int) := by
  cases hd : natDigits n with
  | nil => exact absurd hd (natDigits_ne_nil n)
  | cons c rest =>
    have hdig : isDigitChar c = true := by
      apply natDigits_digits n
      rw [hd]; exact List.mem_cons_self c rest
    have hminus : c ≠ '-' := by intro hc; rw [hc] at hdig; cases hdig
    have hplus : c ≠ '+' := by intro hc; rw [hc] at hdig; cases hdig
    rw [atoi, if_neg hminus, if_neg hplus, ← hd, parseDigits_natDigits]
    rfl

theorem splitComma_ne_nil (s : List Char) : splitComma s ≠ [] := by
  induction s with
  | nil => simp [splitComma]
  | cons c rest ih =>
    rw [splitComma]
    by_cases hc : c = ','
    · simp [hc]
    · rw [if_neg hc]
      cases h : splitComma rest with
      | nil => simp
      | cons x xs => simp

theorem splitComma_of_no_comma (x : List Char) (h : ∀ c ∈ x, c ≠ ',') :
    splitComma x = [x] := by
  induction x with
  | nil => rfl
  | cons c rest ih =>
    have hc : c ≠ ',' := h c (List.mem_cons_self c rest)
    rw [splitComma, if_neg hc, ih (fun d hd => h d (List.mem_cons_of_mem c hd))]

theorem splitComma_append_comma (x s : List Char) (h : ∀ c ∈ x, c ≠ ',') :
    splitComma (x ++ ',' :: s) = x :: splitComma s := by
  induction x with
  | nil => simp [splitComma]
  | cons c rest ih =>
    have hc : c ≠ ',' := h c (List.mem_cons_self c rest)
    rw [List.cons_append, splitComma, if_neg hc,
      ih (fun d hd => h d (List.mem_cons_of_mem c hd))]

theorem splitComma_joinComma (xss : List (List Char)) (hne : xss ≠ [])
    (h : ∀ x ∈ xss, ∀ c ∈ x, c ≠ ',') : splitComma (joinComma xss) = xss := by
  induction xss with
  | nil => exact absurd rfl hne
  | cons x rest ih =>
    cases rest with
    | nil =>
      rw [joinComma]
      exact splitComma_of_no_comma x (h x (List.mem_cons_self x []))
    | cons y rest2 =>
      rw [joinComma, splitComma_append_comma x _ (h x (List.mem_cons_self x _)),
        ih (by simp) (fun z hz c hc => h z (List.mem_cons_of_mem x hz) c hc)]

theorem parseParts_natDigits (ps : List Nat) (hne : ps ≠ []) :
    parseParts (ps.map natDigits) = .ok (ps.map Int.ofNat) := by
  induction ps with
  | nil => exact absurd rfl hne
  | cons p rest ih =>
    cases rest with
    | nil =>
      simp only [List.map_cons, List.map_nil, parseParts]
      rw [if_neg (natDigits_ne_nil p), atoi_natDigits]
      rfl
    | cons q rest2 =>
      simp only [List.map_cons, parseParts]
      rw [atoi_natDigits]
      simp only [List.map_cons] at ih
      rw [ih (by simp)]
      rfl

theorem parse_serialize_positions (ps : List Nat) :
    parsePositions (serializePositions ps) = .ok (ps.map Int.ofNat) := by
  cases ps with
  | nil => rfl
  | cons p rest =>
    rw [serializePositions, parsePositions]
    have hsplit : splitComma (joinComma ((p :: rest).map natDigits)) = (p :: rest).map natDigits := by
      apply splitComma_joinComma
      · simp
      · intro x hx c hc
        rcases List.mem_map.mp hx with ⟨n, _, rfl⟩
        exact natDigits_no_comma n c hc
    rw [hsplit, if_neg (by simp : ¬((p :: rest).map natDigits = []))]
    exact parseParts_natDigits (p :: rest) (by simp)

/-- C9: the comma-joined decimal encoding written by `SetPositions`
round-trips through the splitting and `Atoi` parsing done by
`GatherContext`: every ordered sequence of non-negative integers,
including the empty one, is recovered exactly. -/
theorem positions_roundtrip (ps : List Nat) :
    parsePositions (serializePositions ps) = .ok (ps.map Int.ofNat) :=
  parse_serialize_positions ps

end SnipGo

namespace SnipGo

theorem getAt_coe (W : List String) (i : Nat) (h : i < W.length) :
    getAt W (i : Int) = some (W.get ⟨i, h⟩) := by
  rw [getAt, if_pos (by omega : (0 : Int) ≤ (i : Int))]
  simp [List.get?_eq_get h]

theorem collectRangeAux_slice (k : Nat) : ∀ (a : Nat) (W : List String), a + k ≤ W.length →
    collectRangeAux k W (a : Int) = some ((W.drop a).take k) := by
  induction k with
  | zero =>
    intro a W _
    rw [collectRangeAux, List.take_zero]
  | succ k ih =>
    intro a W hlen
    have ha : a < W.length := by omega
    rw [collectRangeAux, getAt_coe W a ha]
    have hcast : (a : Int) + 1 = ((a + 1 : Nat) : Int) := by push_cast; ring
    rw [hcast, ih (a + 1) W (by omega)]
    have hdrop : W.drop a = W.get ⟨a, ha⟩ :: W.drop (a + 1) := List.drop_eq_get_cons ha
    rw [hdrop, List.take_succ_cons]
    rfl

theorem collectRange_slice (W : List String) (a b : Nat) (hab : a ≤ b) (hb : b ≤ W.length) :
    collectRange W (a : Int) (b : Int) = some ((W.drop a).take (b - a)) := by
  rw [collectRange]
  have hfuel : ((b : Int) - (a : Int)).toNat = b - a := by omega
  rw [hfuel]
  exact collectRangeAux_slice (b - a) a W (by omega)

/-- Amended C7: for every in-range position `p` and window size `w`, the
window body of `GatherContext` returns `before = W[max(0, p-w) : p]`,
`term = W[p]`, `after = W[p+1 : min(len W, p+w+1)]` and
`afterEndPos = min(len W - 1, p+w) + 1`, but `beforeStartPos` equals
`max(0, p-w) + 1` only when the before-window is non-empty (`p > 0` and
`w > 0`); when it is empty the field keeps the Go zero value 0. -/
theorem contextAt_formula (W : List String) (w p : Nat) (h : p < W.length) :
    contextAt W (w : Int) (p : Int) = some
      { Before := (W.drop (p - w)).take (p - (p - w)),
        BeforeStart := if p = 0 ∨ w = 0 then 0 else ((p - w : Nat) : Int) + 1,
        Term := W.get ⟨p, h⟩,
        After := (W.drop (p + 1)).take (min (W.length - 1) (p + w) + 1 - (p + 1)),
        AfterEnd := ((min (W.length - 1) (p + w) : Nat) : Int) + 1 } := by
  have hlen1 : 1 ≤ W.length := by omega
  have hminle : min (W.length - 1) (p + w) ≤ W.length - 1 := min_le_left _ _
  have hpmin : p ≤ min (W.length - 1) (p + w) := le_min (by omega) (by omega)
  rw [contextAt]
  have hstart : (if (p : Int) - (w : Int) < 0 then (0 : Int) else (p : Int) - (w : Int))
      = ((p - w : Nat) : Int) := by
    split <;> omega
  rw [hstart]
  have hbefore : collectRange W ((p - w : Nat) : Int) (p : Int)
      = some ((W.drop (p - w)).take (p - (p - w))) :=
    collectRange_slice W (p - w) p (by omega) (by omega)
  rw [hbefore]
  have hterm := getAt_coe W p h
  have hlast : (if (p : Int) + (w : Int) ≥ (W.length : Int) - 1 then (W.length : Int) - 1
      else (p : Int) + (w : Int)) = ((min (W.length - 1) (p + w) : Nat) : Int) := by
    simp only [Nat.min_def]
    split_ifs <;> omega
  have hafter : collectRange W ((p : Int) + 1) (((min (W.length - 1) (p + w) : Nat) : Int) + 1)
      = some ((W.drop (p + 1)).take (min (W.length - 1) (p + w) + 1 - (p + 1))) := by
    have hcast1 : (p : Int) + 1 = ((p + 1 : Nat) : Int) := by push_cast; ring
    have hcast2 : ((min (W.length - 1) (p + w) : Nat) : Int) + 1
        = ((min (W.length - 1) (p + w) + 1 : Nat) : Int) := by push_cast; ring
    rw [hcast1, hcast2]
    exact collectRange_slice W (p + 1) (min (W.length - 1) (p + w) + 1) (by omega) (by omega)
  have hbs : (if ((p - w : Nat) : Int) < (p : Int) then ((p - w : Nat) : Int) + 1 else 0)
      = (if p = 0 ∨ w = 0 then 0 else ((p - w : Nat) : Int) + 1) := by
    split <;> split <;> omega
  simp only [Option.bind_eq_bind, Option.some_bind, hterm, hlast, hafter, hbs]
  rfl

/-- Counterexample for C7: at stored position 0 with window size 1 the
claimed formula gives `beforeStartPos = max(0, 0-1) + 1 = 1`, but the code
never assigns the field when the before-loop does not run, so it keeps the
zero value 0. -/
theorem contextAt_beforeStart_zero_value :
    contextAt ["a", "b", "c"] 1 0
      = some ⟨[], 0, "a", ["b"], 2⟩ ∧ (0 : Int) ≠ 1 := ⟨rfl, by decide⟩

/-- Witness for the amended C7 at the specification's own example: the
term at word position 4 with window size 2 yields the words at 2 and 3
before, the words at 5 and 6 after, `beforeStartPos = 3` and
`afterEndPos = 7`. -/
theorem contextAt_formula_witness :
    contextAt ["w0", "w1", "w2", "w3", "aquarium", "w5", "w6"] 2 4
      = some ⟨["w2", "w3"], 3, "aquarium", ["w5", "w6"], 7⟩ := by
  have h := contextAt_formula ["w0", "w1", "w2", "w3", "aquarium", "w5", "w6"] 2 4 (by decide)
  rw [show ((4 : Nat) : Int) = (4 : Int) from rfl, show ((2 : Nat) : Int) = (2 : Int) from rfl] at h
  rw [h]
  rfl

end SnipGo

namespace SnipGo

/-- C8: a query with zero terms is rejected with an error (and the
rejection does not depend on the store contents at all), while a query
for a term whose stem matches no index row returns an empty result map
with no error. -/
theorem searchIndexTerm_empty_and_absent (stem : Stemmer) (σ : Store) (r : Bool)
    (t st : String) :
    SearchIndexTerm stem σ [] r = .error .emptyQuery ∧
    (stem t = .ok st → (∀ e ∈ σ, e.term ≠ st) →
      SearchIndexTerm stem σ [t] r = .ok []) := by
  constructor
  · rfl
  · intro hst habs
    have hdrop : stemDropErr stem t = st := by rw [stemDropErr, hst]
    have hfilter : σ.filter (fun e => e.term = stemDropErr stem t) = [] := by
      rw [List.filter_eq_nil]
      intro e he
      simp only [decide_eq_true_eq, hdrop]
      exact habs e he
    have hacc : accumResults stem σ [t] = [] := by
      simp only [accumResults, List.foldl_cons, List.foldl_nil]
      rw [hfilter]
      rfl
    rw [SearchIndexTerm, if_neg (by simp)]
    cases r <;> simp [hacc, pruneRequireAll]

/-- Witness for C8: the rejection of the empty query and the empty (but
successful) result for an absent term, on a one-row store. -/
theorem searchIndexTerm_empty_and_absent_witness :
    SearchIndexTerm stemId [⟨"b", "u", 1, none⟩] [] true = .error .emptyQuery ∧
    SearchIndexTerm stemId [⟨"b", "u", 1, none⟩] ["a"] true = .ok [] := by
  have h := searchIndexTerm_empty_and_absent stemId [⟨"b", "u", 1, none⟩] true "a" "a"
  exact ⟨h.1, h.2 rfl (by decide)⟩

/-! Lemmas about `collectTerms` (the first-occurrence dedup loop). -/

theorem collectTerms_aux_nodup (s : List String) :
    ∀ acc : List String, acc.Nodup →
      (s.foldl (fun acc t => if t ∈ acc then acc else acc ++ [t]) acc).Nodup := by
  induction s with
  | nil => intro acc h; exact h
  | cons x rest ih =>
    intro acc h
    rw [List.foldl_cons]
    by_cases hx : x ∈ acc
    · rw [if_pos hx]; exact ih acc h
    · rw [if_neg hx]
      apply ih
      rw [List.nodup_append]
      refine ⟨h, List.nodup_singleton x, ?_⟩
      intro a ha hax
      rcases List.mem_singleton.mp hax with rfl
      exact hx ha

theorem collectTerms_nodup (s : List String) : (collectTerms s).Nodup :=
  collectTerms_aux_nodup s [] List.nodup_nil

theorem collectTerms_aux_subset (s : List String) :
    ∀ (acc : List String) (x : String),
      x ∈ s.foldl (fun acc t => if t ∈ acc then acc else acc ++ [t]) acc →
      x ∈ acc ∨ x ∈ s := by
  induction s with
  | nil => intro acc x h; exact Or.inl h
  | cons y rest ih =>
    intro acc x h
    rw [List.foldl_cons] at h
    rcases ih _ x h with hacc | hrest
    · by_cases hy : y ∈ acc
      · rw [if_pos hy] at hacc; exact Or.inl hacc
      · rw [if_neg hy] at hacc
        rcases List.mem_append.mp hacc with h1 | h2
        · exact Or.inl h1
        · rcases List.mem_singleton.mp h2 with rfl
          exact Or.inr (List.mem_cons_self x rest)
    · exact Or.inr (List.mem_cons_of_mem y hrest)

theorem collectTerms_subset (s : List String) (x : String) (h : x ∈ collectTerms s) : x ∈ s := by
  rcases collectTerms_aux_subset s [] x h with h0 | h1
  · cases h0
  · exact h1

theorem collectTerms_aux_grow (s : List String) :
    ∀ (acc : List String) (x : String), x ∈ acc →
      x ∈ s.foldl (fun acc t => if t ∈ acc then acc else acc ++ [t]) acc := by
  induction s with
  | nil => intro acc x h; exact h
  | cons y rest ih =>
    intro acc x h
    rw [List.foldl_cons]
    apply ih
    by_cases hy : y ∈ acc
    · rw [if_pos hy]; exact h
    · rw [if_neg hy]; exact List.mem_append_left _ h

theorem collectTerms_aux_complete (s : List String) :
    ∀ (acc : List String) (x : String), x ∈ s →
      x ∈ s.foldl (fun acc t => if t ∈ acc then acc else acc ++ [t]) acc := by
  induction s with
  | nil => intro acc x h; cases h
  | cons y rest ih =>
    intro acc x h
    rw [List.foldl_cons]
    rcases List.mem_cons.mp h with rfl | hrest
    · apply collectTerms_aux_grow
      by_cases hy : x ∈ acc
      · rw [if_pos hy]; exact hy
      · rw [if_neg hy]; exact List.mem_append_right _ (List.mem_singleton.mpr rfl)
    · exact ih _ x hrest

theorem collectTerms_complete (s : List String) (x : String) (h : x ∈ s) :
    x ∈ collectTerms s :=
  collectTerms_aux_complete s [] x h

theorem mem_collectedTerms (l : List SearchCount) (x : String) :
    x ∈ collectedTerms l ↔ ∃ sc ∈ l, sc.Term = x := by
  constructor
  · intro h
    have := collectTerms_subset _ x h
    rcases List.mem_map.mp this with ⟨sc, hsc, hx⟩
    exact ⟨sc, hsc, hx⟩
  · rintro ⟨sc, hsc, rfl⟩
    exact collectTerms_complete _ _ (List.mem_map.mpr ⟨sc, hsc, rfl⟩)

theorem collectedTerms_nodup (l : List SearchCount) : (collectedTerms l).Nodup :=
  collectTerms_nodup _

/-! Accumulated query results only mention supplied raw terms. -/

theorem addResult_terms (T : List String) (res : QueryResult) (id : String)
    (sc : SearchCount) (hres : ∀ q ∈ res, ∀ x ∈ q.2, x.Term ∈ T) (hsc : sc.Term ∈ T) :
    ∀ q ∈ addResult res id sc, ∀ x ∈ q.2, x.Term ∈ T := by
  induction res with
  | nil =>
    intro q hq x hx
    rcases List.mem_singleton.mp hq with rfl
    rcases List.mem_singleton.mp hx with rfl
    exact hsc
  | cons p rest ih =>
    intro q hq x hx
    rw [addResult] at hq
    by_cases hk : p.1 = id
    · rw [if_pos hk] at hq
      rcases List.mem_cons.mp hq with rfl | hq2
      · rcases List.mem_append.mp hx with h1 | h2
        · exact hres p (List.mem_cons_self p rest) x h1
        · rcases List.mem_singleton.mp h2 with rfl
          exact hsc
      · exact hres q (List.mem_cons_of_mem p hq2) x hx
    · rw [if_neg hk] at hq
      rcases List.mem_cons.mp hq with rfl | hq2
      · exact hres p (List.mem_cons_self p rest) x hx
      · exact ih (fun q2 hq3 => hres q2 (List.mem_cons_of_mem p hq3)) q hq2 x hx

theorem entriesFold_terms (T : List String) (t ts : String) (es : List IndexEntry)
    (ht : t ∈ T) :
    ∀ res : QueryResult, (∀ q ∈ res, ∀ x ∈ q.2, x.Term ∈ T) →
      ∀ q ∈ es.foldl (fun r e => addResult r e.uuid ⟨t, ts, e.count⟩) res,
        ∀ x ∈ q.2, x.Term ∈ T := by
  induction es with
  | nil => intro res hres; exact hres
  | cons e rest ih =>
    intro res hres
    rw [List.foldl_cons]
    exact ih _ (addResult_terms T res e.uuid ⟨t, ts, e.count⟩ hres ht)

theorem accumResults_terms (stem : Stemmer) (σ : Store) (terms : List String) :
    ∀ q ∈ accumResults stem σ terms, ∀ x ∈ q.2, x.Term ∈ terms := by
  rw [accumResults]
  have haux : ∀ (ts : List String) (res : QueryResult), (∀ z ∈ ts, z ∈ terms) →
      (∀ q ∈ res, ∀ x ∈ q.2, x.Term ∈ terms) →
      ∀ q ∈ ts.foldl
          (fun res t =>
            let s2 := stemDropErr stem t
            (σ.filter (fun e => e.term = s2)).foldl
              (fun res2 e => addResult res2 e.uuid ⟨t, s2, e.count⟩) res)
          res,
        ∀ x ∈ q.2, x.Term ∈ terms := by
    intro ts
    induction ts with
    | nil => intro res _ hres; exact hres
    | cons t rest ih =>
      intro res hsub hres
      rw [List.foldl_cons]
      exact ih _ (fun z hz => hsub z (List.mem_cons_of_mem t hz))
        (entriesFold_terms terms t _ _ (hsub t (List.mem_cons_self t rest)) res hres)
  exact haux terms [] (fun z hz => hz) (by intro q hq; cases hq)

theorem nodup_length_eq_iff_superset (D T : List String) (hDsub : ∀ x ∈ D, x ∈ T)
    (hDnd : D.Nodup) (hTnd : T.Nodup) :
    D.length = T.length ↔ ∀ x ∈ T, x ∈ D := by
  constructor
  · intro hlen x hx
    have hsp : List.Subperm D T := hDnd.subperm hDsub
    have hperm : List.Perm D T := hsp.perm_of_length_le (by omega)
    exact hperm.mem_iff.mpr hx
  · intro hsup
    have h1 : D.length ≤ T.length := (hDnd.subperm hDsub).length_le
    have h2 : T.length ≤ D.length := (hTnd.subperm hsup).length_le
    omega

/-- Amended C3: for every non-empty list of *pairwise distinct* raw query
terms, `SearchIndexTerm` with `requireAll` retains a document if and only
if its accumulated match list covers every raw term supplied; with
duplicated raw terms the code can drop a fully covering document, because
it compares the number of distinct collected terms against the total
number of supplied terms. -/
theorem searchIndexTerm_requireAll_coverage (stem : Stemmer) (σ : Store)
    (terms : List String) (R : QueryResult) (id : String) (l : List SearchCount)
    (hne : terms ≠ []) (hnd : terms.Nodup)
    (hacc : (id, l) ∈ accumResults stem σ terms)
    (hR : SearchIndexTerm stem σ terms true = .ok R) :
    (id, l) ∈ R ↔ ∀ t ∈ terms, ∃ sc ∈ l, sc.Term = t := by
  have hR2 : R = pruneRequireAll terms (accumResults stem σ terms) := by
    rw [SearchIndexTerm, if_neg (by simp [hne])] at hR
    simp only [if_true, Except.ok.injEq] at hR
    exact hR.symm
  subst hR2
  have hDsub : ∀ x ∈ collectedTerms l, x ∈ terms := by
    intro x hx
    rcases (mem_collectedTerms l x).mp hx with ⟨sc, hsc, rfl⟩
    exact accumResults_terms stem σ terms (id, l) hacc sc hsc
  have hiff := nodup_length_eq_iff_superset (collectedTerms l) terms hDsub
    (collectedTerms_nodup l) hnd
  rw [pruneRequireAll, List.mem_filter]
  constructor
  · rintro ⟨-, hp⟩
    intro t ht
    have hlen : (collectedTerms l).length = terms.length := by
      simpa using hp
    exact (mem_collectedTerms l t).mp (hiff.mp hlen t ht)
  · intro hcov
    refine ⟨hacc, ?_⟩
    have hsup : ∀ x ∈ terms, x ∈ collectedTerms l :=
      fun x hx => (mem_collectedTerms l x).mpr (hcov x hx)
    have hlen := hiff.mpr hsup
    simpa using hlen

/-- Witness for the amended C3 at the specification's own example: with
query `["bird", "zealand"]` the document holding both stems is retained
by the `requireAll` search. -/
theorem searchIndexTerm_requireAll_coverage_witness :
    ("d1", [(⟨"bird", "bird", 2⟩ : SearchCount), ⟨"zealand", "zealand", 1⟩]) ∈
      ([("d1", [(⟨"bird", "bird", 2⟩ : SearchCount), ⟨"zealand", "zealand", 1⟩])] : QueryResult) :=
  (searchIndexTerm_requireAll_coverage stemId
    [⟨"bird", "d1", 2, none⟩, ⟨"zealand", "d1", 1, none⟩, ⟨"bird", "d2", 1, none⟩]
    ["bird", "zealand"]
    [("d1", [⟨"bird", "bird", 2⟩, ⟨"zealand", "zealand", 1⟩])]
    "d1" [⟨"bird", "bird", 2⟩, ⟨"zealand", "zealand", 1⟩]
    (by decide) (by decide) (by decide) rfl).mpr (by decide)

end SnipGo

namespace SnipGo

/-! Store invariants used to reason about `Index` write-backs. -/

/-- Every row of the store carries a non-zero count (true of every store
the indexer itself produces, since a stem is only written while it
occurs). -/
def AllNZ (σ : Store) : Prop := ∀ e ∈ σ, e.count ≠ 0

/-- Every row matching `(t, u)` stores count `c`. -/
def CountEq (t u : String) (c : Nat) (σ : Store) : Prop :=
  ∀ e ∈ σ, entryMatches t u e = true → e.count = c

/-- Every row matching `(t, u)` stores the serialized positions `ps`. -/
def PosEq (t u : String) (ps : List Nat) (σ : Store) : Prop :=
  ∀ e ∈ σ, entryMatches t u e = true → e.positions = some (serializePositions ps)

/-- Some row matching `(t, u)` exists. -/
def ExM (t u : String) (σ : Store) : Prop := ∃ e ∈ σ, entryMatches t u e = true

theorem matches_iff (t u : String) (e : IndexEntry) :
    entryMatches t u e = true ↔ e.term = t ∧ e.uuid = u := by
  simp [entryMatches]

theorem getCount_eq_of_countEq (t u : String) (c : Nat) (σ : Store)
    (hex : ExM t u σ) (hceq : CountEq t u c σ) : GetIndexTermCount t u σ = c := by
  rw [GetIndexTermCount]
  cases hf : σ.find? (entryMatches t u) with
  | none =>
    rcases hex with ⟨e, he, hm⟩
    rw [List.find?_eq_none] at hf
    exact absurd hm (by simpa using hf e he)
  | some e => exact hceq e (List.mem_of_find?_eq_some hf) (List.find?_some hf)

theorem not_exM_of_getCount_zero (t u : String) (σ : Store) (hnz : AllNZ σ)
    (h0 : GetIndexTermCount t u σ = 0) : ¬ ExM t u σ := by
  intro hex
  rw [GetIndexTermCount] at h0
  cases hf : σ.find? (entryMatches t u) with
  | none =>
    rcases hex with ⟨e, he, hm⟩
    rw [List.find?_eq_none] at hf
    have hne : ¬ (entryMatches t u e = true) := by simpa using hf e he
    exact hne hm
  | some e =>
    rw [hf] at h0
    exact hnz e (List.mem_of_find?_eq_some hf) h0

theorem exM_of_getCount_ne_zero (t u : String) (σ : Store)
    (h : GetIndexTermCount t u σ ≠ 0) : ExM t u σ := by
  rw [GetIndexTermCount] at h
  cases hf : σ.find? (entryMatches t u) with
  | none => rw [hf] at h; exact absurd rfl h
  | some e => exact ⟨e, List.mem_of_find?_eq_some hf, List.find?_some hf⟩

theorem map_id_of_eq (l : List IndexEntry) (f : IndexEntry → IndexEntry)
    (h : ∀ e ∈ l, f e = e) : l.map f = l := by
  induction l with
  | nil => rfl
  | cons e rest ih =>
    rw [List.map_cons, h e (List.mem_cons_self e rest),
      ih (fun e2 he2 => h e2 (List.mem_cons_of_mem e he2))]

/-! Behaviour of one `SetIndexTermCount` write. -/

theorem setCount_countEq (t u : String) (c : Nat) (σ : Store) (hnz : AllNZ σ) :
    CountEq t u c (SetIndexTermCount t u c σ) := by
  intro e he hm
  rw [SetIndexTermCount] at he
  by_cases h0 : GetIndexTermCount t u σ ≠ 0
  · rw [if_pos h0] at he
    rcases List.mem_map.mp he with ⟨e0, _, rfl⟩
    by_cases hm0 : entryMatches t u e0 = true
    · rw [if_pos hm0]
    · rw [if_neg hm0] at hm
      exact absurd hm hm0
  · rw [if_neg h0] at he
    rcases List.mem_append.mp he with h1 | h2
    · exact absurd ⟨e, h1, hm⟩
        (not_exM_of_getCount_zero t u σ hnz (not_not.mp h0))
    · rcases List.mem_singleton.mp h2 with rfl
      rfl

theorem setCount_exM (t u : String) (c : Nat) (σ : Store) :
    ExM t u (SetIndexTermCount t u c σ) := by
  rw [SetIndexTermCount]
  by_cases h0 : GetIndexTermCount t u σ ≠ 0
  · rw [if_pos h0]
    rcases exM_of_getCount_ne_zero t u σ h0 with ⟨e0, he0, hm0⟩
    refine ⟨if entryMatches t u e0 then { e0 with count := c } else e0,
      List.mem_map_of_mem _ he0, ?_⟩
    rw [if_pos hm0]
    exact hm0
  · rw [if_neg h0]
    exact ⟨⟨t, u, c, none⟩, List.mem_append_right _ (List.mem_singleton.mpr rfl),
      by simp [entryMatches]⟩

theorem setCount_allNZ (t u : String) (c : Nat) (σ : Store) (hc : c ≠ 0) (hnz : AllNZ σ) :
    AllNZ (SetIndexTermCount t u c σ) := by
  intro e he
  rw [SetIndexTermCount] at he
  by_cases h0 : GetIndexTermCount t u σ ≠ 0
  · rw [if_pos h0] at he
    rcases List.mem_map.mp he with ⟨e0, he0, rfl⟩
    by_cases hm0 : entryMatches t u e0 = true
    · rw [if_pos hm0]; exact hc
    · rw [if_neg hm0]; exact hnz e0 he0
  · rw [if_neg h0] at he
    rcases List.mem_append.mp he with h1 | h2
    · exact hnz e h1
    · rcases List.mem_singleton.mp h2 with rfl
      exact hc

theorem setCount_pres_countEq (t1 u1 t u : String) (c1 c : Nat) (σ : Store) (ht : t1 ≠ t)
    (h : CountEq t u c σ) : CountEq t u c (SetIndexTermCount t1 u1 c1 σ) := by
  intro e he hm
  rw [SetIndexTermCount] at he
  by_cases h0 : GetIndexTermCount t1 u1 σ ≠ 0
  · rw [if_pos h0] at he
    rcases List.mem_map.mp he with ⟨e0, he0, rfl⟩
    by_cases hm0 : entryMatches t1 u1 e0 = true
    · rw [if_pos hm0] at hm
      have h1 : e0.term = t := ((matches_iff t u _).mp hm).1
      have h2 : e0.term = t1 := ((matches_iff t1 u1 e0).mp hm0).1
      exact absurd (show t1 = t by rw [← h2, h1]) ht
    · rw [if_neg hm0] at hm ⊢
      exact h e0 he0 hm
  · rw [if_neg h0] at he
    rcases List.mem_append.mp he with h1 | h2
    · exact h e h1 hm
    · rcases List.mem_singleton.mp h2 with rfl
      have h1 : t1 = t := ((matches_iff t u _).mp hm).1
      exact absurd h1 ht

theorem setCount_pres_posEq (t1 u1 t u : String) (c1 : Nat) (ps : List Nat) (σ : Store)
    (ht : t1 ≠ t) (h : PosEq t u ps σ) : PosEq t u ps (SetIndexTermCount t1 u1 c1 σ) := by
  intro e he hm
  rw [SetIndexTermCount] at he
  by_cases h0 : GetIndexTermCount t1 u1 σ ≠ 0
  · rw [if_pos h0] at he
    rcases List.mem_map.mp he with ⟨e0, he0, rfl⟩
    by_cases hm0 : entryMatches t1 u1 e0 = true
    · rw [if_pos hm0] at hm
      have h1 : e0.term = t := ((matches_iff t u _).mp hm).1
      have h2 : e0.term = t1 := ((matches_iff t1 u1 e0).mp hm0).1
      exact absurd (show t1 = t by rw [← h2, h1]) ht
    · rw [if_neg hm0] at hm ⊢
      exact h e0 he0 hm
  · rw [if_neg h0] at he
    rcases List.mem_append.mp he with h1 | h2
    · exact h e h1 hm
    · rcases List.mem_singleton.mp h2 with rfl
      exact absurd ((matches_iff t u _).mp hm).1 ht

theorem setCount_pres_exM (t1 u1 t u : String) (c1 : Nat) (σ : Store) (ht : t1 ≠ t)
    (h : ExM t u σ) : ExM t u (SetIndexTermCount t1 u1 c1 σ) := by
  rcases h with ⟨e0, he0, hm0⟩
  rw [SetIndexTermCount]
  by_cases h0 : GetIndexTermCount t1 u1 σ ≠ 0
  · rw [if_pos h0]
    have hne : entryMatches t1 u1 e0 ≠ true := by
      intro hx
      have h1 : e0.term = t := ((matches_iff t u e0).mp hm0).1
      have h2 : e0.term = t1 := ((matches_iff t1 u1 e0).mp hx).1
      exact ht (by rw [← h2, h1])
    refine ⟨if entryMatches t1 u1 e0 then { e0 with count := c1 } else e0,
      List.mem_map_of_mem _ he0, ?_⟩
    rw [if_neg hne]
    exact hm0
  · rw [if_neg h0]
    exact ⟨e0, List.mem_append_left _ he0, hm0⟩

/-! Behaviour of one `SetPositions` write. -/

theorem setPos_posEq (t u : String) (ps : List Nat) (σ : Store) :
    PosEq t u ps (SetPositions t u ps σ) := by
  intro e he hm
  rw [SetPositions] at he
  rcases List.mem_map.mp he with ⟨e0, _, rfl⟩
  by_cases hm0 : entryMatches t u e0 = true
  · rw [if_pos hm0]
  · rw [if_neg hm0] at hm
    exact absurd hm hm0

theorem setPos_pres_posEq (t1 u1 t u : String) (ps1 ps : List Nat) (σ : Store)
    (ht : t1 ≠ t) (h : PosEq t u ps σ) : PosEq t u ps (SetPositions t1 u1 ps1 σ) := by
  intro e he hm
  rw [SetPositions] at he
  rcases List.mem_map.mp he with ⟨e0, he0, rfl⟩
  by_cases hm0 : entryMatches t1 u1 e0 = true
  · rw [if_pos hm0] at hm
    have h1 : e0.term = t := ((matches_iff t u _).mp hm).1
    have h2 : e0.term = t1 := ((matches_iff t1 u1 e0).mp hm0).1
    exact absurd (show t1 = t by rw [← h2, h1]) ht
  · rw [if_neg hm0] at hm ⊢
    exact h e0 he0 hm

theorem setPos_pres_countEq (t1 u1 t u : String) (ps1 : List Nat) (c : Nat) (σ : Store)
    (h : CountEq t u c σ) : CountEq t u c (SetPositions t1 u1 ps1 σ) := by
  intro e he hm
  rw [SetPositions] at he
  rcases List.mem_map.mp he with ⟨e0, he0, rfl⟩
  by_cases hm0 : entryMatches t1 u1 e0 = true
  · rw [if_pos hm0] at hm ⊢
    exact h e0 he0 hm
  · rw [if_neg hm0] at hm ⊢
    exact h e0 he0 hm

theorem setPos_pres_exM (t1 u1 t u : String) (ps1 : List Nat) (σ : Store)
    (h : ExM t u σ) : ExM t u (SetPositions t1 u1 ps1 σ) := by
  rcases h with ⟨e0, he0, hm0⟩
  rw [SetPositions]
  refine ⟨if entryMatches t1 u1 e0 then { e0 with positions := some (serializePositions ps1) }
    else e0, List.mem_map_of_mem _ he0, ?_⟩
  by_cases hm1 : entryMatches t1 u1 e0 = true
  · rw [if_pos hm1]
    exact hm0
  · rw [if_neg hm1]
    exact hm0

theorem setPos_pres_allNZ (t1 u1 : String) (ps1 : List Nat) (σ : Store) (hnz : AllNZ σ) :
    AllNZ (SetPositions t1 u1 ps1 σ) := by
  intro e he
  rw [SetPositions] at he
  rcases List.mem_map.mp he with ⟨e0, he0, rfl⟩
  by_cases hm0 : entryMatches t1 u1 e0 = true
  · rw [if_pos hm0]
    exact hnz e0 he0
  · rw [if_neg hm0]
    exact hnz e0 he0

end SnipGo

namespace SnipGo

theorem applyCounts_nil (u : String) (σ : Store) : applyCounts u [] σ = σ := rfl

theorem applyCounts_cons (u : String) (q : String × Nat × List Nat)
    (rest : List (String × Nat × List Nat)) (σ : Store) :
    applyCounts u (q :: rest) σ = applyCounts u rest (SetIndexTermCount q.1 u q.2.1 σ) := rfl

theorem applyPositions_nil (u : String) (σ : Store) : applyPositions u [] σ = σ := rfl

theorem applyPositions_cons (u : String) (q : String × Nat × List Nat)
    (rest : List (String × Nat × List Nat)) (σ : Store) :
    applyPositions u (q :: rest) σ = applyPositions u rest (SetPositions q.1 u q.2.2 σ) := rfl

theorem applyCounts_pres_countEq (u t : String) (c : Nat)
    (data : List (String × Nat × List Nat)) (hk : ∀ p ∈ data, p.1 ≠ t) :
    ∀ σ : Store, CountEq t u c σ → CountEq t u c (applyCounts u data σ) := by
  induction data with
  | nil => intro σ h; exact h
  | cons q rest ih =>
    intro σ h
    rw [applyCounts_cons]
    exact ih (fun p hp => hk p (List.mem_cons_of_mem q hp)) _
      (setCount_pres_countEq q.1 u t u q.2.1 c σ (hk q (List.mem_cons_self q rest)) h)

theorem applyCounts_pres_exM (u t : String) (data : List (String × Nat × List Nat))
    (hk : ∀ p ∈ data, p.1 ≠ t) :
    ∀ σ : Store, ExM t u σ → ExM t u (applyCounts u data σ) := by
  induction data with
  | nil => intro σ h; exact h
  | cons q rest ih =>
    intro σ h
    rw [applyCounts_cons]
    exact ih (fun p hp => hk p (List.mem_cons_of_mem q hp)) _
      (setCount_pres_exM q.1 u t u q.2.1 σ (hk q (List.mem_cons_self q rest)) h)

theorem applyCounts_allNZ (u : String) (data : List (String × Nat × List Nat))
    (hc : ∀ p ∈ data, p.2.1 ≠ 0) :
    ∀ σ : Store, AllNZ σ → AllNZ (applyCounts u data σ) := by
  induction data with
  | nil => intro σ h; exact h
  | cons q rest ih =>
    intro σ h
    rw [applyCounts_cons]
    exact ih (fun p hp => hc p (List.mem_cons_of_mem q hp)) _
      (setCount_allNZ q.1 u q.2.1 σ (hc q (List.mem_cons_self q rest)) h)

theorem applyCounts_establish (u : String) (data : List (String × Nat × List Nat))
    (hnd : (data.map Prod.fst).Nodup) (hc : ∀ p ∈ data, p.2.1 ≠ 0) :
    ∀ σ : Store, AllNZ σ →
      ∀ p ∈ data, CountEq p.1 u p.2.1 (applyCounts u data σ) ∧ ExM p.1 u (applyCounts u data σ) := by
  induction data with
  | nil => intro σ _ p hp; cases hp
  | cons q rest ih =>
    intro σ hnz p hp
    rw [List.map_cons, List.nodup_cons] at hnd
    have hnz2 : AllNZ (SetIndexTermCount q.1 u q.2.1 σ) :=
      setCount_allNZ q.1 u q.2.1 σ (hc q (List.mem_cons_self q rest)) hnz
    rw [applyCounts_cons]
    rcases List.mem_cons.mp hp with rfl | hp2
    · have hkeys : ∀ p2 ∈ rest, p2.1 ≠ p.1 := by
        intro p2 hp2 heq
        exact hnd.1 (heq ▸ List.mem_map_of_mem Prod.fst hp2)
      constructor
      · exact applyCounts_pres_countEq u p.1 p.2.1 rest hkeys _
          (setCount_countEq p.1 u p.2.1 σ hnz)
      · exact applyCounts_pres_exM u p.1 rest hkeys _ (setCount_exM p.1 u p.2.1 σ)
    · exact ih hnd.2 (fun p2 hp3 => hc p2 (List.mem_cons_of_mem q hp3)) _ hnz2 p hp2

theorem applyPositions_pres_countEq (u t : String) (c : Nat)
    (data : List (String × Nat × List Nat)) :
    ∀ σ : Store, CountEq t u c σ → CountEq t u c (applyPositions u data σ) := by
  induction data with
  | nil => intro σ h; exact h
  | cons q rest ih =>
    intro σ h
    rw [applyPositions_cons]
    exact ih _ (setPos_pres_countEq q.1 u t u q.2.2 c σ h)

theorem applyPositions_pres_exM (u t : String) (data : List (String × Nat × List Nat)) :
    ∀ σ : Store, ExM t u σ → ExM t u (applyPositions u data σ) := by
  induction data with
  | nil => intro σ h; exact h
  | cons q rest ih =>
    intro σ h
    rw [applyPositions_cons]
    exact ih _ (setPos_pres_exM q.1 u t u q.2.2 σ h)

theorem applyPositions_pres_posEq (u t : String) (ps : List Nat)
    (data : List (String × Nat × List Nat)) (hk : ∀ p ∈ data, p.1 ≠ t) :
    ∀ σ : Store, PosEq t u ps σ → PosEq t u ps (applyPositions u data σ) := by
  induction data with
  | nil => intro σ h; exact h
  | cons q rest ih =>
    intro σ h
    rw [applyPositions_cons]
    exact ih (fun p hp => hk p (List.mem_cons_of_mem q hp)) _
      (setPos_pres_posEq q.1 u t u q.2.2 ps σ (hk q (List.mem_cons_self q rest)) h)

theorem applyPositions_allNZ (u : String) (data : List (String × Nat × List Nat)) :
    ∀ σ : Store, AllNZ σ → AllNZ (applyPositions u data σ) := by
  induction data with
  | nil => intro σ h; exact h
  | cons q rest ih =>
    intro σ h
    rw [applyPositions_cons]
    exact ih _ (setPos_pres_allNZ q.1 u q.2.2 σ h)

theorem applyPositions_establish (u : String) (data : List (String × Nat × List Nat))
    (hnd : (data.map Prod.fst).Nodup) :
    ∀ σ : Store, ∀ p ∈ data, PosEq p.1 u p.2.2 (applyPositions u data σ) := by
  induction data with
  | nil => intro σ p hp; cases hp
  | cons q rest ih =>
    intro σ p hp
    rw [List.map_cons, List.nodup_cons] at hnd
    rw [applyPositions_cons]
    rcases List.mem_cons.mp hp with rfl | hp2
    · have hkeys : ∀ p2 ∈ rest, p2.1 ≠ p.1 := by
        intro p2 hp2 heq
        exact hnd.1 (heq ▸ List.mem_map_of_mem Prod.fst hp2)
      exact applyPositions_pres_posEq u p.1 p.2.2 rest hkeys _ (setPos_posEq p.1 u p.2.2 σ)
    · exact ih hnd.2 _ p hp2

/-! Re-running a write-back over a store that already holds its values is
the identity. -/

theorem setCount_id (t u : String) (c : Nat) (σ : Store) (h1 : CountEq t u c σ)
    (h2 : ExM t u σ) (hc : c ≠ 0) : SetIndexTermCount t u c σ = σ := by
  have hg : GetIndexTermCount t u σ = c := getCount_eq_of_countEq t u c σ h2 h1
  rw [SetIndexTermCount, if_pos (by rw [hg]; exact hc)]
  apply map_id_of_eq
  intro e he
  by_cases hm : entryMatches t u e = true
  · rw [if_pos hm, ← h1 e he hm]
  · rw [if_neg hm]

theorem setPos_id (t u : String) (ps : List Nat) (σ : Store) (h : PosEq t u ps σ) :
    SetPositions t u ps σ = σ := by
  rw [SetPositions]
  apply map_id_of_eq
  intro e he
  by_cases hm : entryMatches t u e = true
  · rw [if_pos hm, ← h e he hm]
  · rw [if_neg hm]

theorem applyCounts_id (u : String) (data : List (String × Nat × List Nat)) (σ : Store)
    (h : ∀ p ∈ data, CountEq p.1 u p.2.1 σ ∧ ExM p.1 u σ ∧ p.2.1 ≠ 0) :
    applyCounts u data σ = σ := by
  induction data with
  | nil => rfl
  | cons q rest ih =>
    have hq := h q (List.mem_cons_self q rest)
    rw [applyCounts_cons, setCount_id q.1 u q.2.1 σ hq.1 hq.2.1 hq.2.2]
    exact ih (fun p hp => h p (List.mem_cons_of_mem q hp))

theorem applyPositions_id (u : String) (data : List (String × Nat × List Nat)) (σ : Store)
    (h : ∀ p ∈ data, PosEq p.1 u p.2.2 σ) :
    applyPositions u data σ = σ := by
  induction data with
  | nil => rfl
  | cons q rest ih =>
    rw [applyPositions_cons, setPos_id q.1 u q.2.2 σ (h q (List.mem_cons_self q rest))]
    exact ih (fun p hp => h p (List.mem_cons_of_mem q hp))

end SnipGo

namespace SnipGo

/-! Facts about the counting scan and the distinct-stem list. -/

theorem scanGo_len (t : String) (s : List String) :
    ∀ (idx c : Nat) (ps : List Nat), c = ps.length →
      (scanGo t s idx c ps).1 = (scanGo t s idx c ps).2.length := by
  induction s with
  | nil => intro idx c ps h; exact h
  | cons x rest ih =>
    intro idx c ps h
    rw [scanGo]
    by_cases hx : x = t
    · rw [if_pos hx]
      exact ih (idx + 1) (c + 1) (ps ++ [idx]) (by simp [h])
    · rw [if_neg hx]
      exact ih (idx + 1) c ps h

theorem scanGo_mono (t : String) (s : List String) :
    ∀ (idx c : Nat) (ps : List Nat), c ≤ (scanGo t s idx c ps).1 := by
  induction s with
  | nil => intro idx c ps; exact le_refl c
  | cons x rest ih =>
    intro idx c ps
    rw [scanGo]
    by_cases hx : x = t
    · rw [if_pos hx]
      exact le_trans (Nat.le_succ c) (ih (idx + 1) (c + 1) (ps ++ [idx]))
    · rw [if_neg hx]
      exact ih (idx + 1) c ps

theorem scanGo_pos (t : String) (s : List String) (hts : t ∈ s) :
    ∀ (idx c : Nat) (ps : List Nat), c < (scanGo t s idx c ps).1 := by
  induction s with
  | nil => cases hts
  | cons x rest ih =>
    intro idx c ps
    rw [scanGo]
    by_cases hx : x = t
    · rw [if_pos hx]
      exact lt_of_lt_of_le (Nat.lt_succ_self c) (scanGo_mono t rest (idx + 1) (c + 1) (ps ++ [idx]))
    · rw [if_neg hx]
      rcases List.mem_cons.mp hts with rfl | hrest
      · exact absurd rfl hx
      · exact ih hrest (idx + 1) c ps

theorem scanTerm_count_eq_len (s : List String) (t : String) :
    (scanTerm s t).1 = (scanTerm s t).2.length :=
  scanGo_len t s 0 0 [] rfl

theorem scanTerm_count_ne_zero (s : List String) (t : String) (h : t ∈ s) :
    (scanTerm s t).1 ≠ 0 := by
  have := scanGo_pos t s h 0 0 []
  rw [scanTerm]
  omega

theorem indexData_keys (ds : List String) :
    (indexData ds).map Prod.fst = collectTerms ds := by
  rw [indexData, List.map_map]
  rw [show (Prod.fst ∘ fun t => (t, scanTerm ds t)) = id from rfl, List.map_id]

theorem indexData_keys_nodup (ds : List String) :
    ((indexData ds).map Prod.fst).Nodup := by
  rw [indexData_keys]
  exact collectTerms_nodup ds

theorem indexData_counts_nz (ds : List String) :
    ∀ p ∈ indexData ds, p.2.1 ≠ 0 := by
  intro p hp
  rcases List.mem_map.mp hp with ⟨t, ht, rfl⟩
  exact scanTerm_count_ne_zero ds t (collectTerms_subset ds t ht)

theorem indexData_mem_of (ds : List String) (t : String) (ht : t ∈ collectTerms ds) :
    (t, scanTerm ds t) ∈ indexData ds :=
  List.mem_map_of_mem _ ht

/-! Decomposition of a successful `Index` run. -/

theorem index_ok_elim (stem : Stemmer) (s : Snip) (σ σ1 : Store)
    (h : Snip.Index stem s σ = .ok σ1) :
    ∃ ds, stemAll stem (DownCase (SplitWords s.segs)) = .ok ds ∧
      ¬ ((DownCase (SplitWords s.segs)).length ≠ ds.length) ∧
      σ1 = applyPositions s.uuid (indexData ds) (applyCounts s.uuid (indexData ds) σ) := by
  unfold Snip.Index at h
  cases hds : stemAll stem (DownCase (SplitWords s.segs)) with
  | error e =>
    rw [hds] at h
    cases h
  | ok ds =>
    rw [hds] at h
    have h2 : (if (DownCase (SplitWords s.segs)).length ≠ ds.length
        then Except.error Err.lenMismatch
        else Except.ok (applyPositions s.uuid (indexData ds)
          (applyCounts s.uuid (indexData ds) σ))) = Except.ok σ1 := h
    by_cases hlen : (DownCase (SplitWords s.segs)).length ≠ ds.length
    · rw [if_pos hlen] at h2
      cases h2
    · rw [if_neg hlen] at h2
      exact ⟨ds, rfl, hlen, (Except.ok.inj h2).symm⟩

/-- C4: indexing the same unchanged document twice leaves the store
exactly as after the first run — for any starting store satisfying the
indexer's own invariant that stored counts are non-zero, a second
`Index` run performs only count updates and position rewrites that are
already in place. -/
theorem index_idempotent (stem : Stemmer) (s : Snip) (σ σ1 : Store)
    (hnz : AllNZ σ) (h1 : Snip.Index stem s σ = .ok σ1) :
    Snip.Index stem s σ1 = .ok σ1 := by
  rcases index_ok_elim stem s σ σ1 h1 with ⟨ds, hds, hlen, hσ1⟩
  have hnd := indexData_keys_nodup ds
  have hcz := indexData_counts_nz ds
  set data := indexData ds with hdata
  set u := s.uuid with hu
  -- facts about σ1
  have hcnts : ∀ p ∈ data, CountEq p.1 u p.2.1 (applyCounts u data σ) ∧
      ExM p.1 u (applyCounts u data σ) :=
    applyCounts_establish u data hnd hcz σ hnz
  have hnz1 : AllNZ σ1 := by
    rw [hσ1]
    exact applyPositions_allNZ u data _ (applyCounts_allNZ u data hcz σ hnz)
  have hprops : ∀ p ∈ data, CountEq p.1 u p.2.1 σ1 ∧ ExM p.1 u σ1 ∧ PosEq p.1 u p.2.2 σ1 := by
    intro p hp
    refine ⟨?_, ?_, ?_⟩
    · rw [hσ1]
      exact applyPositions_pres_countEq u p.1 p.2.1 data _ (hcnts p hp).1
    · rw [hσ1]
      exact applyPositions_pres_exM u p.1 data _ (hcnts p hp).2
    · rw [hσ1]
      exact applyPositions_establish u data hnd _ p hp
  -- the second run
  unfold Snip.Index
  rw [hds]
  show (if (DownCase (SplitWords s.segs)).length ≠ ds.length
      then Except.error Err.lenMismatch
      else Except.ok (applyPositions s.uuid (indexData ds)
        (applyCounts s.uuid (indexData ds) σ1))) = Except.ok σ1
  rw [if_neg hlen, ← hdata, ← hu]
  rw [applyCounts_id u data σ1
    (fun p hp => ⟨(hprops p hp).1, (hprops p hp).2.1, hcz p hp⟩)]
  rw [applyPositions_id u data σ1 (fun p hp => (hprops p hp).2.2)]

/-- Witness for C4: a concrete document indexed into an empty store; a
second run leaves the produced two-row store unchanged. -/
theorem index_idempotent_witness :
    Snip.Index stemId ⟨"u1", ["b", "a", "b"]⟩
      [⟨"b", "u1", 2, some ['0', ',', '2']⟩, ⟨"a", "u1", 1, some ['1']⟩]
      = .ok [⟨"b", "u1", 2, some ['0', ',', '2']⟩, ⟨"a", "u1", 1, some ['1']⟩] :=
  index_idempotent stemId ⟨"u1", ["b", "a", "b"]⟩ []
    [⟨"b", "u1", 2, some ['0', ',', '2']⟩, ⟨"a", "u1", 1, some ['1']⟩]
    (fun e he => absurd he (List.not_mem_nil e)) rfl

theorem getPositions_eq (σ : Store) (u t : String) (ps : List Nat)
    (hex : ExM t u σ) (hpos : PosEq t u ps σ) :
    GetPositions σ u t = serializePositions ps := by
  rw [GetPositions]
  cases hf : σ.find? (entryMatches t u) with
  | none =>
    rcases hex with ⟨e, he, hm⟩
    rw [List.find?_eq_none] at hf
    have hne : ¬ (entryMatches t u e = true) := by simpa using hf e he
    exact absurd hm hne
  | some e =>
    show e.positions.getD [] = serializePositions ps
    rw [hpos e (List.mem_of_find?_eq_some hf) (List.find?_some hf)]
    rfl

/-- C5: after a successful `Index` run, every stem produced by the run
has a stored count equal to the length of its stored positions list (the
stored positions string parses back to a list whose length is exactly the
stored count). -/
theorem index_count_matches_positions (stem : Stemmer) (s : Snip) (σ σ1 : Store)
    (ds : List String) (hnz : AllNZ σ)
    (hds : stemAll stem (DownCase (SplitWords s.segs)) = .ok ds)
    (h1 : Snip.Index stem s σ = .ok σ1)
    (t : String) (ht : t ∈ collectTerms ds) :
    ∃ l, parsePositions (GetPositions σ1 s.uuid t) = .ok l ∧
      GetIndexTermCount t s.uuid σ1 = l.length := by
  rcases index_ok_elim stem s σ σ1 h1 with ⟨ds2, hds2, _, hσ1⟩
  have hdseq : ds2 = ds := by
    rw [hds] at hds2
    exact (Except.ok.inj hds2).symm
  subst hdseq
  have hnd := indexData_keys_nodup ds2
  have hcz := indexData_counts_nz ds2
  set data := indexData ds2 with hdata
  set u := s.uuid with hu
  have hp : (t, scanTerm ds2 t) ∈ data := indexData_mem_of ds2 t ht
  have hcnts := applyCounts_establish u data hnd hcz σ hnz (t, scanTerm ds2 t) hp
  have hceq : CountEq t u (scanTerm ds2 t).1 σ1 := by
    rw [hσ1]
    exact applyPositions_pres_countEq u t (scanTerm ds2 t).1 data _ hcnts.1
  have hex : ExM t u σ1 := by
    rw [hσ1]
    exact applyPositions_pres_exM u t data _ hcnts.2
  have hpos : PosEq t u (scanTerm ds2 t).2 σ1 := by
    rw [hσ1]
    exact applyPositions_establish u data hnd _ (t, scanTerm ds2 t) hp
  refine ⟨(scanTerm ds2 t).2.map Int.ofNat, ?_, ?_⟩
  · rw [getPositions_eq σ1 u t (scanTerm ds2 t).2 hex hpos]
    exact parse_serialize_positions (scanTerm ds2 t).2
  · rw [getCount_eq_of_countEq t u (scanTerm ds2 t).1 σ1 hex hceq,
      scanTerm_count_eq_len]
    simp

/-- Witness for C5: on the concrete document above, the stem "b" stores
count 2 and its positions string parses back to the two positions 0 and
2. -/
theorem index_count_matches_positions_witness :
    ∃ l, parsePositions (GetPositions
        [⟨"b", "u1", 2, some ['0', ',', '2']⟩, ⟨"a", "u1", 1, some ['1']⟩] "u1" "b")
        = .ok l ∧
      GetIndexTermCount "b" "u1"
        [⟨"b", "u1", 2, some ['0', ',', '2']⟩, ⟨"a", "u1", 1, some ['1']⟩] = l.length :=
  index_count_matches_positions stemId ⟨"u1", ["b", "a", "b"]⟩ []
    [⟨"b", "u1", 2, some ['0', ',', '2']⟩, ⟨"a", "u1", 1, some ['1']⟩]
    ["b", "a", "b"]
    (fun e he => absurd he (List.not_mem_nil e)) rfl rfl "b" (by decide)

end SnipGo
